import Mathlib

/-!
Shallow embedding of the SMA-crossover backtester's core computations
(`app/services/strategy.py`, `app/services/metrics.py`, and the horizon
windowing / portfolio aggregation in `app/main.py`).

Price series are modelled as lists of exact rationals (the Python code uses
floats; the spec's algebraic claims are about the exact arithmetic).  A pandas
column is a `List ℚ` (or `List (Option ℚ)` when the column can hold NaN), and
rolling statistics are defined per index exactly as pandas computes them:
`rolling(window=w, min_periods=w)` is defined at index `t` iff `w ≤ t + 1`,
over the window of the last `w` closes.  `pct_change().fillna(0)` gives return
0 at index 0.  `shift(1).fillna(0)` prepends a 0 and drops the last element.
-/

namespace SMABacktester

/-- `shift(1).fillna(0.0)` on a column: bar `t` gets the value of bar `t - 1`,
bar 0 gets 0. -/
def shiftOne (l : List ℚ) : List ℚ :=
  match l with
  | [] => []
  | _ :: _ => 0 :: l.dropLast

/-- `close.pct_change().fillna(0.0)`: simple returns with the first return 0. -/
def retListOf (closes : List ℚ) : List ℚ :=
  (List.range closes.length).map
    (fun t => if t = 0 then 0 else closes.getD t 0 / closes.getD (t - 1) 0 - 1)

/-- The trailing window of the last `w` values ending at index `t`. -/
def windowAt (w : ℕ) (xs : List ℚ) (t : ℕ) : List ℚ :=
  (xs.take (t + 1)).drop (t + 1 - w)

/-- `rolling(window=w, min_periods=w).mean()` at index `t`. -/
def smaAt (w : ℕ) (xs : List ℚ) (t : ℕ) : Option ℚ :=
  if t + 1 < w then none else some ((windowAt w xs t).sum / (w : ℚ))

/-- Sample variance (pandas `ddof=1`) of a window: sum of squared deviations
from the window mean, divided by `w - 1`.  Total helper over the window at
index `t`. -/
def sampleVarAt (w : ℕ) (xs : List ℚ) (t : ℕ) : ℚ :=
  ((windowAt w xs t).map (fun x => (x - (windowAt w xs t).sum / (w : ℚ)) ^ 2)).sum
    / ((w : ℚ) - 1)

/-- `rolling(window=w, min_periods=w).std()` squared, i.e. the `ddof=1`
variance column: pandas leaves it NaN until `w` bars exist, and NaN for
`w < 2` (a single observation has no `ddof=1` deviation). -/
def var1At (w : ℕ) (xs : List ℚ) (t : ℕ) : Option ℚ :=
  if t + 1 < w ∨ w < 2 then none else some (sampleVarAt w xs t)

/-- Cumulative product `(1 + r).cumprod()` up to and including index `t`. -/
def prefixProd (rets : List ℚ) (t : ℕ) : ℚ :=
  ((rets.take (t + 1)).map (fun r => 1 + r)).prod

/-- `initial_capital * (1 + rets).cumprod()` as a column. -/
def equityList (cap : ℚ) (rets : List ℚ) : List ℚ :=
  (List.range rets.length).map (fun t => cap * prefixProd rets t)

/-! ## SMA crossover engine (`run_sma_crossover`) -/

/-- Result table of `run_sma_crossover` (its added columns). -/
structure SmaResult where
  ret : List ℚ
  sma_5 : List (Option ℚ)
  sma_20 : List (Option ℚ)
  signal : List ℚ
  position : List ℚ
  strategy_ret : List ℚ
  strategy_equity : List ℚ
  buy_hold_equity : List ℚ

/-- The signal of bar `t`: 0 until both moving averages exist (`ma_ready`);
then `long_short` maps `sma_5 > sma_20` to 1 and `sma_5 ≤ sma_20` to -1,
while any other mode (`long_only`) maps `sma_5 > sma_20` to 1, else 0. -/
def smaSignalAt (position_mode : String) (closes : List ℚ) (t : ℕ) : ℚ :=
  match smaAt 5 closes t, smaAt 20 closes t with
  | some f, some s =>
      if position_mode = "long_short" then (if s < f then 1 else -1)
      else (if s < f then 1 else 0)
  | _, _ => 0

def run_sma_crossover (closes : List ℚ) (initial_capital : ℚ)
    (position_mode : String) : SmaResult :=
  let n := closes.length
  let ret := retListOf closes
  let signal := (List.range n).map (smaSignalAt position_mode closes)
  let position := shiftOne signal
  let strategy_ret := List.zipWith (· * ·) position ret
  { ret := ret
    sma_5 := (List.range n).map (smaAt 5 closes)
    sma_20 := (List.range n).map (smaAt 20 closes)
    signal := signal
    position := position
    strategy_ret := strategy_ret
    strategy_equity := equityList initial_capital strategy_ret
    buy_hold_equity := equityList initial_capital ret }

/-! ## Buy and hold (`buy_and_hold`) -/

structure BHResult where
  ret : List ℚ
  equity : List ℚ

def buy_and_hold (closes : List ℚ) (initial_capital : ℚ) : BHResult :=
  let ret := retListOf closes
  { ret := ret, equity := equityList initial_capital ret }

/-! ## Mean-reversion z-score engine (`run_mean_reversion_zscore`)

The z-score of bar `t` is `(close - mean) / std` with `std = √(sample var)`.
The state machine only ever compares the z-score against rational thresholds,
so the embedding carries, per bar, the pair `(close - mean, sample var)` when
the z-score is defined (`pd.notna(zscore)`), and decides the comparison
`(d / √v) ≤ c` by the equivalent sign/square test `divSqrtLE` over ℚ (the
equivalence with the real inequality is proved in `divSqrtLE_iff` below). -/

/-- Decides `d / √v ≤ c` for `v > 0` by squaring (see `divSqrtLE_iff`). -/
def divSqrtLE (d v c : ℚ) : Bool :=
  if 0 ≤ c then (decide (d ≤ 0) || decide (d ^ 2 ≤ c ^ 2 * v))
  else (decide (d < 0) && decide (c ^ 2 * v ≤ d ^ 2))

/-- `zscore_ready and zscore <= c` for an optional z-score `(d, v)`. -/
def zLEb (z : Option (ℚ × ℚ)) (c : ℚ) : Bool :=
  match z with
  | some zi => divSqrtLE zi.1 zi.2 c
  | none => false

/-- `zscore_ready and zscore >= c` (`d / √v ≥ c ↔ -d / √v ≤ -c`). -/
def zGEb (z : Option (ℚ × ℚ)) (c : ℚ) : Bool :=
  match z with
  | some zi => divSqrtLE (-zi.1) zi.2 (-c)
  | none => false

/-- State carried across bars by the sequential scan: `active_position`,
`entry_price`, `bars_held`. -/
structure MRState where
  active_position : ℚ
  entry_price : Option ℚ
  bars_held : ℕ
deriving DecidableEq

/-- The initial scan state (flat, no entry price, 0 bars held). -/
def mrInit : MRState := ⟨0, none, 0⟩

/-- `exit_signal`: the mean-reversion exit test (Long exits on
`zscore >= -exit_z`, Short on `zscore <= exit_z`, both only when the z-score
is defined). -/
def exitSignal (exit_z : ℚ) (st : MRState) (z : Option (ℚ × ℚ)) : Bool :=
  (decide (0 < st.active_position) && zGEb z (-exit_z))
    || (decide (st.active_position < 0) && zLEb z exit_z)

/-- `stop_hit`: unrealised pnl versus the entry price breaches
`-stop_loss_pct` (only with a stop configured and a positive entry price). -/
def stopHit (stop_loss_pct : Option ℚ) (st : MRState) (close : ℚ) : Bool :=
  match stop_loss_pct, st.entry_price with
  | some sl, some ep =>
      decide (0 < ep) &&
        decide ((if 0 < st.active_position then close / ep - 1
                 else ep / close - 1) ≤ -sl)
  | _, _ => false

/-- `timed_exit`: `max_holding_bars` is set and `bars_held` reached it. -/
def timedExit (max_holding_bars : Option ℕ) (bars : ℕ) : Bool :=
  match max_holding_bars with
  | some k => decide (k ≤ bars)
  | none => false

/-- The three exit conditions checked while a position is held, evaluated
after `bars_held` is incremented: mean-reversion exit, stop-loss, timed exit. -/
def mrExit (exit_z : ℚ) (stop_loss_pct : Option ℚ) (max_holding_bars : Option ℕ)
    (st : MRState) (close : ℚ) (z : Option (ℚ × ℚ)) : Bool :=
  exitSignal exit_z st z || stopHit stop_loss_pct st close
    || timedExit max_holding_bars (st.bars_held + 1)

/-- One loop iteration: from the carried state and the bar's close/z-score,
the next state and the signal recorded for the bar. -/
def mrStep (entry_z exit_z : ℚ) (stop_loss_pct : Option ℚ)
    (max_holding_bars : Option ℕ) (allow_short : Bool) (st : MRState)
    (close : ℚ) (z : Option (ℚ × ℚ)) : MRState × ℚ :=
  if st.active_position = 0 then
    if zLEb z (-entry_z) then (⟨1, some close, 0⟩, 1)
    else if allow_short && zGEb z entry_z then (⟨-1, some close, 0⟩, -1)
    else (st, st.active_position)
  else
    if mrExit exit_z stop_loss_pct max_holding_bars st close z then (mrInit, 0)
    else ({ st with bars_held := st.bars_held + 1 }, st.active_position)

/-- The sequential scan over the bars producing the `signal` column. -/
def mrSignalAux (entry_z exit_z : ℚ) (stop_loss_pct : Option ℚ)
    (max_holding_bars : Option ℕ) (allow_short : Bool) (st : MRState) :
    List (ℚ × Option (ℚ × ℚ)) → List ℚ
  | [] => []
  | row :: rest =>
      let p := mrStep entry_z exit_z stop_loss_pct max_holding_bars allow_short
        st row.1 row.2
      p.2 :: mrSignalAux entry_z exit_z stop_loss_pct max_holding_bars
        allow_short p.1 rest

/-- The per-bar z-score data `(close - mean, sample var)`:
present exactly when the code's `zscore` is not NaN, i.e. when `lookback`
bars exist, `lookback ≥ 2` (pandas `ddof=1`) and the rolling std is nonzero. -/
def zInfoAt (lookback : ℕ) (closes : List ℚ) (t : ℕ) : Option (ℚ × ℚ) :=
  match smaAt lookback closes t, var1At lookback closes t with
  | some m, some v => if v = 0 then none else some (closes.getD t 0 - m, v)
  | _, _ => none

/-- The bar rows `(close, z-score data)` fed to the scan. -/
def mrRows (lookback : ℕ) (closes : List ℚ) : List (ℚ × Option (ℚ × ℚ)) :=
  closes.zip ((List.range closes.length).map (zInfoAt lookback closes))

/-- The `signal` column of `run_mean_reversion_zscore`. -/
def mrSignalList (closes : List ℚ) (lookback : ℕ) (entry_z exit_z : ℚ)
    (stop_loss_pct : Option ℚ) (max_holding_bars : Option ℕ)
    (allow_short : Bool) : List ℚ :=
  mrSignalAux entry_z exit_z stop_loss_pct max_holding_bars allow_short mrInit
    (mrRows lookback closes)

/-- The rolling `std` column before the `.where` guard:
`rolling(lookback, min_periods=lookback).std()`, i.e. `√(ddof=1 variance)`. -/
noncomputable def rollingStdAt (w : ℕ) (xs : List ℚ) (t : ℕ) : Option ℝ :=
  (var1At w xs t).map (fun v => Real.sqrt (v : ℝ))

/-- The `std` column after `data["std"].where(data["std"] != 0.0)`. -/
noncomputable def mrStdAt (w : ℕ) (xs : List ℚ) (t : ℕ) : Option ℝ :=
  (rollingStdAt w xs t).bind (fun s => if s = 0 then none else some s)

/-- The `zscore` column `(close - mean) / std` (NaN wherever std is NaN). -/
noncomputable def mrZscoreAt (w : ℕ) (xs : List ℚ) (t : ℕ) : Option ℝ :=
  match smaAt w xs t, mrStdAt w xs t with
  | some m, some s => some ((((xs.getD t 0 : ℚ) : ℝ) - (m : ℝ)) / s)
  | _, _ => none

/-- Result table of `run_mean_reversion_zscore` (its added columns). -/
structure MRResult where
  ret : List ℚ
  mean : List (Option ℚ)
  std : List (Option ℝ)
  zscore : List (Option ℝ)
  signal : List ℚ
  position : List ℚ
  strategy_ret : List ℚ
  strategy_equity : List ℚ
  buy_hold_equity : List ℚ

noncomputable def run_mean_reversion_zscore (closes : List ℚ)
    (initial_capital : ℚ) (lookback : ℕ) (entry_z exit_z : ℚ)
    (stop_loss_pct : Option ℚ) (max_holding_bars : Option ℕ)
    (allow_short : Bool) : MRResult :=
  let n := closes.length
  let ret := retListOf closes
  let signal := mrSignalList closes lookback entry_z exit_z stop_loss_pct
    max_holding_bars allow_short
  let position := shiftOne signal
  let strategy_ret := List.zipWith (· * ·) position ret
  { ret := ret
    mean := (List.range n).map (smaAt lookback closes)
    std := (List.range n).map (mrStdAt lookback closes)
    zscore := (List.range n).map (mrZscoreAt lookback closes)
    signal := signal
    position := position
    strategy_ret := strategy_ret
    strategy_equity := equityList initial_capital strategy_ret
    buy_hold_equity := equityList initial_capital ret }

/-! ## Metrics engine (`compute_metrics`) -/

def WEEKS_PER_YEAR : ℕ := 52

/-- Maximum of a list (pandas `Series.max` / `cummax` building block);
0 on the empty list, which the code never reaches. -/
def listMax : List ℚ → ℚ
  | [] => 0
  | x :: xs => xs.foldl max x

/-- Minimum of a list (pandas `Series.min`); 0 on the empty list. -/
def listMin : List ℚ → ℚ
  | [] => 0
  | x :: xs => xs.foldl min x

/-- Mean of a list (`Series.mean`). -/
def listMean (l : List ℚ) : ℚ := l.sum / (l.length : ℚ)

/-- Population variance (`Series.std(ddof=0)` squared). -/
def popVar (l : List ℚ) : ℚ :=
  (l.map (fun x => (x - listMean l) ^ 2)).sum / (l.length : ℚ)

/-- The metric summary dict returned by `compute_metrics` (the `sharpe`
field is the code's `"sharpe_ratio"` entry). -/
structure MetricSummary where
  cumulative_return : ℚ
  cagr : ℝ
  max_drawdown : ℚ
  volatility : ℝ
  sharpe : ℝ

/-- `compute_metrics(returns)`.  `returns.fillna(0)` is the identity here
(exact rationals carry no NaN).  `equity.iloc[-1]` raises `IndexError` on an
empty series, modelled by returning `none`.  The Python float power for
`cagr` is modelled by real `rpow`. -/
noncomputable def compute_metrics (returns : List ℚ) : Option MetricSummary :=
  let n := returns.length
  let equity := (List.range n).map (fun t => prefixProd returns t)
  match equity.getLast? with
  | none => none
  | some lastEq =>
      let years : ℚ := max ((n : ℚ) / (WEEKS_PER_YEAR : ℚ)) (1 / (WEEKS_PER_YEAR : ℚ))
      let running_max := (List.range n).map (fun t => listMax (equity.take (t + 1)))
      let drawdown := List.zipWith (fun e m => e / m - 1) equity running_max
      let volatility : ℝ :=
        Real.sqrt (popVar returns) * Real.sqrt (WEEKS_PER_YEAR : ℝ)
      let mean_annual_return : ℝ := ((listMean returns : ℚ) : ℝ) * (WEEKS_PER_YEAR : ℝ)
      some
        { cumulative_return := lastEq - 1
          cagr := (lastEq : ℝ) ^ ((1 : ℝ) / (years : ℚ)) - 1
          max_drawdown := listMin drawdown
          volatility := volatility
          sharpe := if 0 < volatility then mean_annual_return / volatility else 0 }

/-! ## Horizon windowing and rebasing (`_apply_horizon_window_and_rebase`)

A data-frame row is a date plus an association list of column values.  The
calendar-month subtraction `latest_date - DateOffset(months=m)` is an external
pandas computation; it enters the embedding as an abstract `monthsAgo`
function (the claims hold for every cutoff it could produce). -/

structure CRow where
  date : ℤ
  cols : List (String × ℚ)

def colLookup : List (String × ℚ) → String → Option ℚ
  | [], _ => none
  | p :: ps, c => if p.1 = c then some p.2 else colLookup ps c

def colSet : List (String × ℚ) → String → ℚ → List (String × ℚ)
  | [], _, _ => []
  | p :: ps, c, v => (if p.1 = c then (p.1, v) else p) :: colSet ps c v

def getCol (r : CRow) (c : String) : Option ℚ := colLookup r.cols c

def setCol (r : CRow) (c : String) (v : ℚ) : CRow :=
  { r with cols := colSet r.cols c v }

/-- The `_HORIZON_MONTHS` dict (callers only pass the five listed keys). -/
def HORIZON_MONTHS (h : String) : ℕ :=
  if h = "1M" then 1 else if h = "6M" then 6 else if h = "1Y" then 12
  else if h = "5Y" then 60 else if h = "10Y" then 120 else 0

/-- `window_df.loc[0, column] = 0.0`, guarded by `column in window_df.columns`. -/
def resetFirstRet (w : List CRow) (c : String) : List CRow :=
  match w with
  | [] => []
  | r :: rs => (if (getCol r c).isSome then setCol r c 0 else r) :: rs

/-- Rebase one equity column: divide by the window's first value and multiply
by `initial_capital`; constant `initial_capital` when that first value ≤ 0;
skipped when the column is absent. -/
def rebaseCol (initial_capital : ℚ) (w : List CRow) (c : String) : List CRow :=
  match w with
  | [] => []
  | r :: _ =>
      match getCol r c with
      | none => w
      | some base =>
          if base ≤ 0 then w.map (fun row => setCol row c initial_capital)
          else w.map (fun row =>
            setCol row c (initial_capital * ((getCol row c).getD 0 / base)))

/-- Keep the bars with `date >= cutoff`; fall back to the whole curve when
that filter empties the set. -/
def horizonWindow (monthsAgo : ℤ → ℕ → ℤ) (df : List CRow) (horizon : String) :
    List CRow :=
  match df.getLast? with
  | none => []
  | some lastRow =>
      if (df.filter (fun r =>
          monthsAgo lastRow.date (HORIZON_MONTHS horizon) ≤ r.date)).isEmpty
      then df
      else df.filter (fun r =>
        monthsAgo lastRow.date (HORIZON_MONTHS horizon) ≤ r.date)

def apply_horizon_window_and_rebase (monthsAgo : ℤ → ℕ → ℤ) (df : List CRow)
    (horizon : String) (initial_capital : ℚ)
    (return_columns equity_columns : List String) : List CRow :=
  if df.isEmpty then df
  else
    let window := horizonWindow monthsAgo df horizon
    let window := return_columns.foldl resetFirstRet window
    equity_columns.foldl (rebaseCol initial_capital) window

/-! ## Portfolio aggregator (`portfolio_backtest` selection loop)

`positions_wide` / `momentum_wide` lookups at a (date, ticker) pair enter as
abstract functions `posAt` / `momAt` (the frames are dense after
`fillna(0.0)`; momentum stays NaN with under 4 periods of history, hence
`Option`).  The loop body per date is embedded literally: active tickers,
optional momentum ranking (stable descending sort, NaN ranked as -∞),
equal weights over the selected set. -/

def momKey (m : Option ℚ) : WithBot ℚ :=
  match m with
  | some v => (v : WithBot ℚ)
  | none => ⊥

def activeTickers (tickers : List String) (pos : String → ℚ) : List String :=
  tickers.filter (fun t => 0 < pos t)

/-- `sorted(active, key=momentum-or--inf, reverse=True)`: stable descending. -/
def rankedByMomentum (active : List String) (mom : String → Option ℚ) :
    List String :=
  active.mergeSort (fun a b => decide (momKey (mom b) ≤ momKey (mom a)))

def selectedTickers (use_ranking : Bool) (top_n : ℕ) (tickers : List String)
    (pos : String → ℚ) (mom : String → Option ℚ) : List String :=
  let active := activeTickers tickers pos
  if use_ranking && !active.isEmpty then (rankedByMomentum active mom).take top_n
  else active

/-- The weight dict built for one date: `1/len(selected)` on the selected
tickers, 0 elsewhere. -/
def weightFor (use_ranking : Bool) (top_n : ℕ) (tickers : List String)
    (pos : String → ℚ) (mom : String → Option ℚ) (t : String) : ℚ :=
  let sel := selectedTickers use_ranking top_n tickers pos mom
  if t ∈ sel then 1 / (sel.length : ℚ) else 0

/-- `top_n = min(payload.top_n, len(tickers))`. -/
def portfolio_top_n (payload_top_n : ℕ) (tickers : List String) : ℕ :=
  min payload_top_n tickers.length

/-- `latest_weights` after the loop: all zero before any date, else the
weight dict of the final date. -/
def latestWeights (dates : List ℤ) (tickers : List String)
    (posAt : ℤ → String → ℚ) (momAt : ℤ → String → Option ℚ)
    (use_ranking : Bool) (top_n : ℕ) (t : String) : ℚ :=
  match dates.getLast? with
  | none => 0
  | some d => weightFor use_ranking top_n tickers (posAt d) (momAt d) t

/-- The state carried into bar `i` when the scan starts from `st`. -/
def mrStateFrom (ez xz : ℚ) (sl : Option ℚ) (mhb : Option ℕ) (ash : Bool)
    (st : MRState) (rows : List (ℚ × Option (ℚ × ℚ))) (i : ℕ) : MRState :=
  (rows.take i).foldl
    (fun s row => (mrStep ez xz sl mhb ash s row.1 row.2).1) st

/-- The state carried into bar `i` of the engine's scan (initially flat). -/
def mrStateAt (ez xz : ℚ) (sl : Option ℚ) (mhb : Option ℕ) (ash : Bool)
    (rows : List (ℚ × Option (ℚ × ℚ))) (i : ℕ) : MRState :=
  mrStateFrom ez xz sl mhb ash mrInit rows i

/-- The value of column `c` in a frame's first row (`window_df.loc[0, c]`). -/
def firstVal (w : List CRow) (c : String) : Option ℚ :=
  match w with
  | [] => none
  | r :: _ => getCol r c

/-- Spec-side definition (for comparison with the code's `std` column): the
*population* variance of the trailing window, normalised by `w`. -/
def popVarWindow (w : ℕ) (xs : List ℚ) (t : ℕ) : ℚ :=
  ((windowAt w xs t).map (fun x => (x - (windowAt w xs t).sum / (w : ℚ)) ^ 2)).sum
    / (w : ℚ)

/-- Spec-side definition, following the spec's words: the rolling std as the
*population* standard deviation of the last `w` closes, undefined until `w`
bars exist, and a zero std treated as undefined. -/
noncomputable def popStdSpec (w : ℕ) (xs : List ℚ) (t : ℕ) : Option ℝ :=
  if t + 1 < w then none
  else if popVarWindow w xs t = 0 then none
  else some (Real.sqrt ((popVarWindow w xs t : ℚ) : ℝ))

/-- `runBound k c l`: scanning `l`, every maximal run of nonzero entries —
counting a run of `c` entries already open on entry — stays within `k`. -/
def runBound (k : ℕ) : ℕ → List ℚ → Prop
  | _, [] => True
  | c, s :: rest =>
      if s = 0 then runBound k 0 rest else (c + 1 ≤ k ∧ runBound k (c + 1) rest)

/-! ## Plumbing lemmas -/

lemma getD_rangeMap {α : Type} (f : ℕ → α) (d : α) {n t : ℕ} (h : t < n) :
    ((List.range n).map f).getD t d = f t := by
  simp [List.getD_eq_getElem?_getD, List.getElem?_map, List.getElem?_range, h]

lemma shiftOne_length (l : List ℚ) : (shiftOne l).length = l.length := by
  cases l with
  | nil => rfl
  | cons x xs => simp [shiftOne]

lemma shiftOne_getD_zero (l : List ℚ) : (shiftOne l).getD 0 0 = 0 := by
  cases l <;> rfl

lemma shiftOne_getD_succ (l : List ℚ) (t : ℕ) (h : t + 1 < l.length) :
    (shiftOne l).getD (t + 1) 0 = l.getD t 0 := by
  cases l with
  | nil => simp at h
  | cons x xs =>
      show (0 :: (x :: xs).dropLast).getD (t + 1) 0 = (x :: xs).getD t 0
      rw [List.getD_cons_succ]
      have ht : t < ((x :: xs).dropLast).length := by
        simp only [List.length_dropLast, List.length_cons] at h ⊢; omega
      rw [List.getD_eq_getElem _ _ ht, List.getD_eq_getElem _ _ (by omega)]
      exact List.getElem_dropLast _ _ _

/-- The one-bar lag, pointwise: entry 0 is 0, entry `t ≥ 1` is the source's
entry `t - 1`. -/
lemma shiftOne_spec (l : List ℚ) :
    (shiftOne l).getD 0 0 = 0 ∧
      ∀ t, 1 ≤ t → t < l.length → (shiftOne l).getD t 0 = l.getD (t - 1) 0 := by
  refine ⟨shiftOne_getD_zero l, fun t h1 hl => ?_⟩
  obtain ⟨s, rfl⟩ : ∃ s, t = s + 1 := ⟨t - 1, by omega⟩
  simpa using shiftOne_getD_succ l s hl

lemma retListOf_length (closes : List ℚ) :
    (retListOf closes).length = closes.length := by
  simp [retListOf]

lemma retListOf_getD_zero (closes : List ℚ) :
    (retListOf closes).getD 0 0 = 0 := by
  cases closes with
  | nil => rfl
  | cons x xs => rw [retListOf, getD_rangeMap _ _ (by simp)]; rfl

lemma equityList_length (cap : ℚ) (rets : List ℚ) :
    (equityList cap rets).length = rets.length := by
  simp [equityList]

lemma zipWith_mul_getD_zero (p r : List ℚ) :
    (List.zipWith (· * ·) p r).getD 0 0 = p.getD 0 0 * r.getD 0 0 := by
  cases p <;> cases r <;> simp

lemma equityList_getD_zero (cap : ℚ) (rets : List ℚ) (h : rets ≠ []) :
    (equityList cap rets).getD 0 0 = cap * (1 + rets.getD 0 0) := by
  have h0 : 0 < rets.length := List.length_pos.2 h
  rw [equityList, getD_rangeMap _ _ h0]
  congr 1
  cases rets with
  | nil => exact absurd rfl h
  | cons x xs => simp [prefixProd]

lemma mrSignalAux_length (ez xz : ℚ) (sl : Option ℚ) (mhb : Option ℕ)
    (ash : Bool) (st : MRState) (rows : List (ℚ × Option (ℚ × ℚ))) :
    (mrSignalAux ez xz sl mhb ash st rows).length = rows.length := by
  induction rows generalizing st with
  | nil => rfl
  | cons row rest ih => simp [mrSignalAux, ih]

lemma mrRows_length (lookback : ℕ) (closes : List ℚ) :
    (mrRows lookback closes).length = closes.length := by
  simp [mrRows]

lemma mrSignalList_length (closes : List ℚ) (lookback : ℕ) (ez xz : ℚ)
    (sl : Option ℚ) (mhb : Option ℕ) (ash : Bool) :
    (mrSignalList closes lookback ez xz sl mhb ash).length = closes.length := by
  rw [mrSignalList, mrSignalAux_length, mrRows_length]

/-- `position` is definitionally `shiftOne signal` in the SMA engine. -/
lemma sma_position_def (closes : List ℚ) (cap : ℚ) (mode : String) :
    (run_sma_crossover closes cap mode).position
      = shiftOne (run_sma_crossover closes cap mode).signal := rfl

/-- `position` is definitionally `shiftOne signal` in the MR engine. -/
lemma mr_position_def (closes : List ℚ) (cap : ℚ) (lookback : ℕ) (ez xz : ℚ)
    (sl : Option ℚ) (mhb : Option ℕ) (ash : Bool) :
    (run_mean_reversion_zscore closes cap lookback ez xz sl mhb ash).position
      = shiftOne (run_mean_reversion_zscore closes cap lookback ez xz sl mhb
          ash).signal := rfl

/-! ## C1: the one-bar execution lag -/

/-- C1: for every price series and every strategy engine (SMA crossover in
either position mode, mean-reversion z-score with any parameters), the
position series is the signal lagged by exactly one bar:
`position_0 = 0` and `position_t = signal_{t-1}` for every bar `t ≥ 1`. -/
theorem position_is_lagged_signal (closes : List ℚ) (cap : ℚ) (mode : String)
    (lookback : ℕ) (ez xz : ℚ) (sl : Option ℚ) (mhb : Option ℕ) (ash : Bool) :
    ((run_sma_crossover closes cap mode).position.getD 0 0 = 0 ∧
      ∀ t, 1 ≤ t → t < (run_sma_crossover closes cap mode).signal.length →
        (run_sma_crossover closes cap mode).position.getD t 0
          = (run_sma_crossover closes cap mode).signal.getD (t - 1) 0) ∧
    ((run_mean_reversion_zscore closes cap lookback ez xz sl mhb
        ash).position.getD 0 0 = 0 ∧
      ∀ t, 1 ≤ t →
        t < (run_mean_reversion_zscore closes cap lookback ez xz sl mhb
          ash).signal.length →
        (run_mean_reversion_zscore closes cap lookback ez xz sl mhb
          ash).position.getD t 0
          = (run_mean_reversion_zscore closes cap lookback ez xz sl mhb
              ash).signal.getD (t - 1) 0) := by
  rw [sma_position_def, mr_position_def]
  exact ⟨shiftOne_spec _, shiftOne_spec _⟩

theorem position_is_lagged_signal_witness :
    (run_sma_crossover [1, 2] 100 "long_only").position.getD 1 0
      = (run_sma_crossover [1, 2] 100 "long_only").signal.getD 0 0 :=
  (position_is_lagged_signal [1, 2] 100 "long_only" 2 1 1 none none true).1.2
    1 (by norm_num) (by simp [run_sma_crossover])

/-! ## C10: the buy-and-hold baseline does not depend on the position mode -/

/-- C10: `run_sma_crossover` returns identical `ret` and `buy_hold_equity`
columns in `long_only` and `long_short` mode, for every price series and
capital. -/
theorem sma_baseline_mode_independent (closes : List ℚ) (cap : ℚ) :
    (run_sma_crossover closes cap "long_only").ret
        = (run_sma_crossover closes cap "long_short").ret ∧
      (run_sma_crossover closes cap "long_only").buy_hold_equity
        = (run_sma_crossover closes cap "long_short").buy_hold_equity :=
  ⟨rfl, rfl⟩

/-! ## C8: equity curves start at the initial capital -/

/-- C8: on every non-empty price series and positive capital, both engines
start both equity curves exactly at `initial_capital` (since `r_0 = 0` and
`position_0 = 0`). -/
theorem equity_starts_at_initial_capital (closes : List ℚ) (cap : ℚ)
    (mode : String) (lookback : ℕ) (ez xz : ℚ) (sl : Option ℚ)
    (mhb : Option ℕ) (ash : Bool) (hcap : 0 < cap) (hne : closes ≠ []) :
    (run_sma_crossover closes cap mode).strategy_equity.getD 0 0 = cap ∧
    (run_sma_crossover closes cap mode).buy_hold_equity.getD 0 0 = cap ∧
    (run_mean_reversion_zscore closes cap lookback ez xz sl mhb
      ash).strategy_equity.getD 0 0 = cap ∧
    (run_mean_reversion_zscore closes cap lookback ez xz sl mhb
      ash).buy_hold_equity.getD 0 0 = cap := by
  have hn : 0 < closes.length := List.length_pos.2 hne
  have hret : retListOf closes ≠ [] := by
    intro h; rw [← List.length_eq_zero, retListOf_length] at h; omega
  have hbh : ∀ c : ℚ, (equityList c (retListOf closes)).getD 0 0 = c := by
    intro c
    rw [equityList_getD_zero c _ hret, retListOf_getD_zero]
    ring
  have hs : ∀ sig : List ℚ, sig.length = closes.length →
      (equityList cap (List.zipWith (· * ·) (shiftOne sig)
        (retListOf closes))).getD 0 0 = cap := by
    intro sig hlen
    have hzne : List.zipWith (· * ·) (shiftOne sig) (retListOf closes) ≠ [] := by
      intro h
      rw [← List.length_eq_zero, List.length_zipWith, shiftOne_length, hlen,
        retListOf_length] at h
      omega
    rw [equityList_getD_zero cap _ hzne, zipWith_mul_getD_zero,
      shiftOne_getD_zero]
    ring
  refine ⟨?_, hbh cap, ?_, hbh cap⟩
  · exact hs _ (by simp [run_sma_crossover])
  · exact hs _ (mrSignalList_length closes lookback ez xz sl mhb ash)

theorem equity_starts_at_initial_capital_witness :
    (run_sma_crossover [1, 2] 100 "long_only").strategy_equity.getD 0 0
      = 100 :=
  (equity_starts_at_initial_capital [1, 2] 100 "long_only" 2 1 1 none none
    true (by norm_num) (by simp)).1

/-! ## C3: totality and short-series degeneracy -/

lemma mem_rangeMap {α : Type} {f : ℕ → α} {n : ℕ} {x : α}
    (h : x ∈ (List.range n).map f) : ∃ t, t < n ∧ x = f t := by
  obtain ⟨t, ht, rfl⟩ := List.mem_map.1 h
  exact ⟨t, List.mem_range.1 ht, rfl⟩

lemma shiftOne_all_zero {l : List ℚ} (h : ∀ x ∈ l, x = 0) :
    ∀ x ∈ shiftOne l, x = 0 := by
  cases l with
  | nil => simp [shiftOne]
  | cons a as =>
      intro x hx
      rcases List.mem_cons.1 hx with rfl | hx'
      · rfl
      · exact h x (List.dropLast_subset _ hx')

lemma zipWith_mul_all_zero {p : List ℚ} (r : List ℚ)
    (hp : ∀ x ∈ p, x = 0) : ∀ x ∈ List.zipWith (· * ·) p r, x = 0 := by
  induction p generalizing r with
  | nil => simp
  | cons a as ih =>
      cases r with
      | nil => simp
      | cons b bs =>
          intro x hx
          rcases List.mem_cons.1 hx with rfl | hx'
          · rw [hp a (by simp)]; ring
          · exact ih bs (fun y hy => hp y (by simp [hy])) x hx'

lemma prefixProd_all_zero {rets : List ℚ} (h : ∀ x ∈ rets, x = 0) (t : ℕ) :
    prefixProd rets t = 1 := by
  apply List.prod_eq_one
  intro x hx
  obtain ⟨y, hy, rfl⟩ := List.mem_map.1 hx
  rw [h y (List.take_subset _ _ hy)]
  ring

lemma equityList_const {cap : ℚ} {rets : List ℚ} (h : ∀ x ∈ rets, x = 0) :
    ∀ x ∈ equityList cap rets, x = cap := by
  intro x hx
  obtain ⟨t, _, rfl⟩ := mem_rangeMap hx
  rw [prefixProd_all_zero h]
  ring

lemma smaAt_none_of_short {w : ℕ} {xs : List ℚ} {t : ℕ} (h : t + 1 < w) :
    smaAt w xs t = none := by
  simp [smaAt, h]

lemma var1At_none_of_short {w : ℕ} {xs : List ℚ} {t : ℕ} (h : t + 1 < w) :
    var1At w xs t = none := by
  simp [var1At, h]

lemma sma_signal_all_zero {closes : List ℚ} {mode : String}
    (h : closes.length < 20) {cap : ℚ} :
    ∀ x ∈ (run_sma_crossover closes cap mode).signal, x = 0 := by
  intro x hx
  obtain ⟨t, ht, rfl⟩ := mem_rangeMap hx
  rw [smaSignalAt, @smaAt_none_of_short 20 closes t (by omega)]
  cases smaAt 5 closes t <;> rfl

lemma zInfoAt_none_of_short {lookback : ℕ} {closes : List ℚ} {t : ℕ}
    (h : t + 1 < lookback) : zInfoAt lookback closes t = none := by
  rw [zInfoAt, var1At_none_of_short h]
  cases smaAt lookback closes t <;> rfl

/-- From a flat state, bars whose z-score is undefined never change the state
and always record signal 0. -/
lemma mrSignalAux_all_none {ez xz : ℚ} {sl : Option ℚ} {mhb : Option ℕ}
    {ash : Bool} {rows : List (ℚ × Option (ℚ × ℚ))} {st : MRState}
    (hst : st.active_position = 0) (hz : ∀ row ∈ rows, row.2 = none) :
    ∀ x ∈ mrSignalAux ez xz sl mhb ash st rows, x = 0 := by
  induction rows generalizing st with
  | nil => simp [mrSignalAux]
  | cons row rest ih =>
      have hrow : row.2 = none := hz row (by simp)
      have hstep :
          mrStep ez xz sl mhb ash st row.1 row.2 = (st, st.active_position) := by
        rw [mrStep, if_pos hst, hrow]
        simp [zLEb, zGEb]
      intro x hx
      rw [mrSignalAux, hstep] at hx
      rcases List.mem_cons.1 hx with rfl | hx'
      · exact hst
      · exact ih hst (fun r hr => hz r (by simp [hr])) x hx'

lemma mr_signal_all_zero {closes : List ℚ} {lookback : ℕ} {ez xz : ℚ}
    {sl : Option ℚ} {mhb : Option ℕ} {ash : Bool}
    (h : closes.length < lookback) :
    ∀ x ∈ mrSignalList closes lookback ez xz sl mhb ash, x = 0 := by
  apply mrSignalAux_all_none rfl
  intro row hrow
  have h2 := (List.of_mem_zip hrow).2
  obtain ⟨t, ht, h3⟩ := mem_rangeMap h2
  rw [h3, zInfoAt_none_of_short (by omega)]

/-- C3: both engines and buy-and-hold are total on every non-empty price
series: every result column carries one value per input bar.  On a series
shorter than the smallest rolling window (5 bars for the SMA engine,
`lookback` bars for the mean-reversion engine) all rolling values are
undefined, signal and position are 0 on every bar, and the strategy equity
is constantly `initial_capital`. -/
theorem engines_total_and_degenerate (closes : List ℚ) (cap : ℚ)
    (mode : String) (lookback : ℕ) (ez xz : ℚ) (sl : Option ℚ)
    (mhb : Option ℕ) (ash : Bool) (hne : closes ≠ []) :
    (((run_sma_crossover closes cap mode).ret.length = closes.length ∧
       (run_sma_crossover closes cap mode).sma_5.length = closes.length ∧
       (run_sma_crossover closes cap mode).sma_20.length = closes.length ∧
       (run_sma_crossover closes cap mode).signal.length = closes.length ∧
       (run_sma_crossover closes cap mode).position.length = closes.length ∧
       (run_sma_crossover closes cap mode).strategy_ret.length = closes.length ∧
       (run_sma_crossover closes cap mode).strategy_equity.length
         = closes.length ∧
       (run_sma_crossover closes cap mode).buy_hold_equity.length
         = closes.length) ∧
     ((run_mean_reversion_zscore closes cap lookback ez xz sl mhb ash).ret.length
         = closes.length ∧
       (run_mean_reversion_zscore closes cap lookback ez xz sl mhb
         ash).mean.length = closes.length ∧
       (run_mean_reversion_zscore closes cap lookback ez xz sl mhb
         ash).std.length = closes.length ∧
       (run_mean_reversion_zscore closes cap lookback ez xz sl mhb
         ash).zscore.length = closes.length ∧
       (run_mean_reversion_zscore closes cap lookback ez xz sl mhb
         ash).signal.length = closes.length ∧
       (run_mean_reversion_zscore closes cap lookback ez xz sl mhb
         ash).position.length = closes.length ∧
       (run_mean_reversion_zscore closes cap lookback ez xz sl mhb
         ash).strategy_ret.length = closes.length ∧
       (run_mean_reversion_zscore closes cap lookback ez xz sl mhb
         ash).strategy_equity.length = closes.length ∧
       (run_mean_reversion_zscore closes cap lookback ez xz sl mhb
         ash).buy_hold_equity.length = closes.length) ∧
     ((buy_and_hold closes cap).ret.length = closes.length ∧
       (buy_and_hold closes cap).equity.length = closes.length)) ∧
    (closes.length < 5 →
      (∀ x ∈ (run_sma_crossover closes cap mode).sma_5, x = none) ∧
      (∀ x ∈ (run_sma_crossover closes cap mode).sma_20, x = none) ∧
      (∀ x ∈ (run_sma_crossover closes cap mode).signal, x = 0) ∧
      (∀ x ∈ (run_sma_crossover closes cap mode).position, x = 0) ∧
      (∀ x ∈ (run_sma_crossover closes cap mode).strategy_equity, x = cap)) ∧
    (closes.length < lookback →
      (∀ x ∈ (run_mean_reversion_zscore closes cap lookback ez xz sl mhb
          ash).mean, x = none) ∧
      (∀ x ∈ (run_mean_reversion_zscore closes cap lookback ez xz sl mhb
          ash).std, x = none) ∧
      (∀ x ∈ (run_mean_reversion_zscore closes cap lookback ez xz sl mhb
          ash).zscore, x = none) ∧
      (∀ x ∈ (run_mean_reversion_zscore closes cap lookback ez xz sl mhb
          ash).signal, x = 0) ∧
      (∀ x ∈ (run_mean_reversion_zscore closes cap lookback ez xz sl mhb
          ash).position, x = 0) ∧
      (∀ x ∈ (run_mean_reversion_zscore closes cap lookback ez xz sl mhb
          ash).strategy_equity, x = cap)) := by
  refine ⟨⟨?_, ?_, ?_⟩, ?_, ?_⟩
  · refine ⟨retListOf_length _, by simp [run_sma_crossover],
      by simp [run_sma_crossover], by simp [run_sma_crossover], ?_, ?_, ?_, ?_⟩
    · show (shiftOne _).length = _
      rw [shiftOne_length]; simp [run_sma_crossover]
    · show (List.zipWith _ _ _).length = _
      rw [List.length_zipWith, shiftOne_length, retListOf_length]
      simp [run_sma_crossover]
    · show (equityList _ _).length = _
      rw [equityList_length, List.length_zipWith, shiftOne_length,
        retListOf_length]
      simp [run_sma_crossover]
    · show (equityList _ _).length = _
      rw [equityList_length, retListOf_length]
  · refine ⟨retListOf_length _, by simp [run_mean_reversion_zscore],
      by simp [run_mean_reversion_zscore], by simp [run_mean_reversion_zscore],
      mrSignalList_length _ _ _ _ _ _ _, ?_, ?_, ?_, ?_⟩
    · show (shiftOne _).length = _
      rw [shiftOne_length, mrSignalList_length]
    · show (List.zipWith _ _ _).length = _
      rw [List.length_zipWith, shiftOne_length, mrSignalList_length,
        retListOf_length, min_self]
    · show (equityList _ _).length = _
      rw [equityList_length, List.length_zipWith, shiftOne_length,
        mrSignalList_length, retListOf_length, min_self]
    · show (equityList _ _).length = _
      rw [equityList_length, retListOf_length]
  · exact ⟨retListOf_length _, by
      show (equityList _ _).length = _
      rw [equityList_length, retListOf_length]⟩
  · intro h5
    have hsig : ∀ x ∈ (run_sma_crossover closes cap mode).signal, x = 0 :=
      sma_signal_all_zero (by omega)
    have hpos : ∀ x ∈ (run_sma_crossover closes cap mode).position, x = 0 :=
      shiftOne_all_zero hsig
    refine ⟨?_, ?_, hsig, hpos, ?_⟩
    · intro x hx
      obtain ⟨t, ht, rfl⟩ := mem_rangeMap hx
      exact smaAt_none_of_short (by omega)
    · intro x hx
      obtain ⟨t, ht, rfl⟩ := mem_rangeMap hx
      exact smaAt_none_of_short (by omega)
    · exact equityList_const (zipWith_mul_all_zero _ hpos)
  · intro hlb
    have hsig : ∀ x ∈ (run_mean_reversion_zscore closes cap lookback ez xz sl
        mhb ash).signal, x = 0 := mr_signal_all_zero hlb
    have hpos : ∀ x ∈ (run_mean_reversion_zscore closes cap lookback ez xz sl
        mhb ash).position, x = 0 := shiftOne_all_zero hsig
    refine ⟨?_, ?_, ?_, hsig, hpos, ?_⟩
    · intro x hx
      obtain ⟨t, ht, rfl⟩ := mem_rangeMap hx
      exact smaAt_none_of_short (by omega)
    · intro x hx
      obtain ⟨t, ht, rfl⟩ := mem_rangeMap hx
      rw [mrStdAt, rollingStdAt, var1At_none_of_short (by omega)]
      rfl
    · intro x hx
      obtain ⟨t, ht, rfl⟩ := mem_rangeMap hx
      rw [mrZscoreAt, smaAt_none_of_short (by omega)]
    · exact equityList_const (zipWith_mul_all_zero _ hpos)

theorem engines_total_and_degenerate_witness :
    (run_sma_crossover [1, 2, 3] 100 "long_only").strategy_equity.getD 0 0
      = 100 := by
  have hth := engines_total_and_degenerate [1, 2, 3] 100 "long_only" 5 2
    (1/2) none none true (by simp)
  have hlen := hth.1.1.2.2.2.2.2.2.1
  have hmem : (run_sma_crossover [1, 2, 3] 100
      "long_only").strategy_equity.getD 0 0
      ∈ (run_sma_crossover [1, 2, 3] 100 "long_only").strategy_equity := by
    rw [List.getD_eq_getElem _ _ (by rw [hlen]; norm_num)]
    exact List.getElem_mem _
  exact (hth.2.1 (by simp)).2.2.2.2 _ hmem

/-! ## C5: a bar that exits is flat for that bar's recorded signal -/

lemma mrStateFrom_succ (ez xz : ℚ) (sl : Option ℚ) (mhb : Option ℕ)
    (ash : Bool) (st : MRState) (rows : List (ℚ × Option (ℚ × ℚ))) (i : ℕ)
    (h : i < rows.length) :
    mrStateFrom ez xz sl mhb ash st rows (i + 1)
      = (mrStep ez xz sl mhb ash (mrStateFrom ez xz sl mhb ash st rows i)
          (rows.getD i (0, none)).1 (rows.getD i (0, none)).2).1 := by
  induction rows generalizing st i with
  | nil => simp at h
  | cons row rest ih =>
      cases i with
      | zero => simp [mrStateFrom]
      | succ j =>
          have hj : j < rest.length := by simpa using h
          have hrec := ih (mrStep ez xz sl mhb ash st row.1 row.2).1 j hj
          simpa [mrStateFrom, List.take_succ_cons] using hrec

lemma mrSignalAux_getD (ez xz : ℚ) (sl : Option ℚ) (mhb : Option ℕ)
    (ash : Bool) (st : MRState) (rows : List (ℚ × Option (ℚ × ℚ))) (i : ℕ)
    (h : i < rows.length) :
    (mrSignalAux ez xz sl mhb ash st rows).getD i 0
      = (mrStep ez xz sl mhb ash (mrStateFrom ez xz sl mhb ash st rows i)
          (rows.getD i (0, none)).1 (rows.getD i (0, none)).2).2 := by
  induction rows generalizing st i with
  | nil => simp at h
  | cons row rest ih =>
      cases i with
      | zero => simp [mrSignalAux, mrStateFrom]
      | succ j =>
          have hj : j < rest.length := by simpa using h
          have hrec := ih (mrStep ez xz sl mhb ash st row.1 row.2).1 j hj
          simpa [mrSignalAux, mrStateFrom, List.take_succ_cons] using hrec

/-- C5: whenever the state carried into bar `i` holds a position and any of
the three exit conditions fires on that bar, the state carried out of the bar
is exactly the flat initial state (`active_position = 0`, `entry_price`
cleared, `bars_held = 0`) and the signal recorded for bar `i` is 0 — no entry
can occur on the same bar, whatever that bar's z-score is. -/
theorem exit_bar_records_flat (closes : List ℚ) (cap : ℚ) (lookback : ℕ)
    (ez xz : ℚ) (sl : Option ℚ) (mhb : Option ℕ) (ash : Bool) (i : ℕ)
    (hi : i < closes.length)
    (hactive :
      (mrStateAt ez xz sl mhb ash (mrRows lookback closes) i).active_position
        ≠ 0)
    (hexit :
      mrExit xz sl mhb (mrStateAt ez xz sl mhb ash (mrRows lookback closes) i)
        ((mrRows lookback closes).getD i (0, none)).1
        ((mrRows lookback closes).getD i (0, none)).2 = true) :
    mrStateAt ez xz sl mhb ash (mrRows lookback closes) (i + 1) = mrInit ∧
    (run_mean_reversion_zscore closes cap lookback ez xz sl mhb
      ash).signal.getD i 0 = 0 := by
  have hrows : i < (mrRows lookback closes).length := by
    rwa [mrRows_length]
  have hstep :
      mrStep ez xz sl mhb ash
        (mrStateAt ez xz sl mhb ash (mrRows lookback closes) i)
        ((mrRows lookback closes).getD i (0, none)).1
        ((mrRows lookback closes).getD i (0, none)).2 = (mrInit, 0) := by
    rw [mrStep, if_neg hactive, if_pos hexit]
  constructor
  · rw [mrStateAt, mrStateFrom_succ _ _ _ _ _ _ _ _ hrows]
    rw [mrStateAt] at hstep
    rw [hstep]
  · show (mrSignalList closes lookback ez xz sl mhb ash).getD i 0 = 0
    rw [mrSignalList, mrSignalAux_getD _ _ _ _ _ _ _ _ hrows]
    rw [mrStateAt] at hstep
    rw [hstep]

theorem exit_bar_records_flat_witness :
    mrStateAt (7/10) (1/2) none none true (mrRows 2 [2, 1, 2]) 3 = mrInit ∧
    (run_mean_reversion_zscore [2, 1, 2] 100 2 (7/10) (1/2) none none
      true).signal.getD 2 0 = 0 :=
  exit_bar_records_flat [2, 1, 2] 100 2 (7/10) (1/2) none none true 2
    (by norm_num)
    (by
      simp [mrStateAt, mrStateFrom, mrRows, mrStep, mrExit, exitSignal, stopHit, timedExit, mrInit, zInfoAt,
        smaAt, var1At, sampleVarAt, windowAt, zLEb, zGEb, divSqrtLE,
        List.range_succ]
      norm_num)
    (by
      simp [mrStateAt, mrStateFrom, mrRows, mrStep, mrExit, exitSignal, stopHit, timedExit, mrInit, zInfoAt,
        smaAt, var1At, sampleVarAt, windowAt, zLEb, zGEb, divSqrtLE,
        List.range_succ]
      norm_num)

/-! ## C6: `max_holding_bars = k` bounds every non-flat run by `k` bars -/

/-- A held position that does not exit must still be under the holding
limit after this bar's increment. -/
lemma mrExit_false_timed {xz : ℚ} {sl : Option ℚ} {k : ℕ} {st : MRState}
    {close : ℚ} {z : Option (ℚ × ℚ)}
    (h : mrExit xz sl (some k) st close z = false) :
    st.bars_held + 1 < k := by
  by_contra hc
  push_neg at hc
  rw [mrExit, Bool.or_eq_false_iff, timedExit] at h
  have h2 := h.2
  simp only [decide_eq_false_iff_not, not_le] at h2
  omega

/-- Scan invariant: starting from a state that is either flat with no open
run, or holding with the open run equal to `bars_held + 1 ≤ k`, the emitted
signal list keeps every nonzero run within `k`. -/
lemma mrSignalAux_runBound (ez xz : ℚ) (sl : Option ℚ) (ash : Bool) (k : ℕ)
    (hk : 1 ≤ k) (rows : List (ℚ × Option (ℚ × ℚ))) (st : MRState) (c : ℕ)
    (hinv : (st.active_position = 0 ∧ c = 0) ∨
      (st.active_position ≠ 0 ∧ c = st.bars_held + 1 ∧ c ≤ k)) :
    runBound k c (mrSignalAux ez xz sl (some k) ash st rows) := by
  induction rows generalizing st c with
  | nil => rw [mrSignalAux]; exact trivial
  | cons row rest ih =>
      rw [mrSignalAux]
      rcases hinv with ⟨ha, hc⟩ | ⟨ha, hc, hck⟩
      · subst hc
        rw [mrStep, if_pos ha]
        by_cases h1 : zLEb row.2 (-ez) = true
        · rw [if_pos h1]
          show runBound k 0 ((1 : ℚ) :: _)
          rw [runBound, if_neg one_ne_zero]
          exact ⟨by omega, ih _ _ (Or.inr ⟨one_ne_zero, rfl, hk⟩)⟩
        · rw [if_neg h1]
          by_cases h2 : (ash && zGEb row.2 ez) = true
          · rw [if_pos h2]
            show runBound k 0 ((-1 : ℚ) :: _)
            rw [runBound, if_neg (by norm_num)]
            exact ⟨by omega, ih _ _ (Or.inr ⟨by norm_num, rfl, hk⟩)⟩
          · rw [if_neg h2]
            show runBound k 0 (st.active_position :: _)
            rw [runBound, if_pos ha]
            exact ih _ _ (Or.inl ⟨ha, rfl⟩)
      · rw [mrStep, if_neg ha]
        by_cases hex : mrExit xz sl (some k) st row.1 row.2 = true
        · rw [if_pos hex]
          show runBound k c ((0 : ℚ) :: _)
          rw [runBound, if_pos rfl]
          exact ih _ _ (Or.inl ⟨rfl, rfl⟩)
        · rw [if_neg hex]
          have hb : st.bars_held + 1 < k :=
            mrExit_false_timed (Bool.not_eq_true _ ▸ hex)
          show runBound k c (st.active_position :: _)
          rw [runBound, if_neg ha]
          refine ⟨by omega, ih _ _ (Or.inr ⟨ha, ?_, by omega⟩)⟩
          show c + 1 = st.bars_held + 1 + 1
          omega

/-- A nonzero run starting at the head of a `runBound` list extends the open
run, so its length is bounded by `k` minus the open count. -/
lemma runBound_front (k : ℕ) (l : List ℚ) :
    ∀ (c n : ℕ), runBound k c l → n ≤ l.length →
      (∀ j, j < n → l.getD j 0 ≠ 0) → n = 0 ∨ c + n ≤ k := by
  induction l with
  | nil =>
      intro c n _ hn _
      left
      simpa using hn
  | cons s rest ih =>
      intro c n hb hn hrun
      cases n with
      | zero => exact Or.inl rfl
      | succ m =>
          have hs : s ≠ 0 := by simpa using hrun 0 (by omega)
          rw [runBound, if_neg hs] at hb
          have hrest : ∀ j, j < m → rest.getD j 0 ≠ 0 := by
            intro j hj
            simpa using hrun (j + 1) (by omega)
          rcases ih (c + 1) m hb.2 (by simpa using hn) hrest with h0 | hle
          · subst h0
            exact Or.inr (by omega)
          · exact Or.inr (by omega)

/-- Any interior nonzero run of a `runBound` list has length at most `k`. -/
lemma runBound_run_le (k : ℕ) (l : List ℚ) :
    ∀ (c i n : ℕ), runBound k c l → i + n ≤ l.length →
      (∀ j, j < n → l.getD (i + j) 0 ≠ 0) → n = 0 ∨ n ≤ k := by
  induction l with
  | nil =>
      intro c i n _ hn _
      left
      simp only [List.length_nil, Nat.le_zero] at hn
      omega
  | cons s rest ih =>
      intro c i n hb hn hrun
      cases i with
      | zero =>
          rcases runBound_front k (s :: rest) c n hb (by omega) (by simpa using hrun)
            with h0 | hle
          · exact Or.inl h0
          · exact Or.inr (by omega)
      | succ i' =>
          have hrest : ∀ j, j < n → rest.getD (i' + j) 0 ≠ 0 := by
            intro j hj
            have := hrun j hj
            simpa [Nat.succ_add] using this
          have hn' : i' + n ≤ rest.length := by
            simp only [List.length_cons] at hn
            omega
          rw [runBound] at hb
          by_cases hs : s = 0
          · rw [if_pos hs] at hb
            exact ih 0 i' n hb hn' hrest
          · rw [if_neg hs] at hb
            exact ih (c + 1) i' n hb.2 hn' hrest

/-- C6: with `max_holding_bars = k ≥ 1`, the emitted signal series contains
no contiguous run of nonzero (non-flat) values longer than `k` bars, for
every price series and every parameterisation. -/
theorem max_holding_bounds_runs (closes : List ℚ) (cap : ℚ) (lookback : ℕ)
    (ez xz : ℚ) (sl : Option ℚ) (ash : Bool) (k : ℕ) (hk : 1 ≤ k) (i n : ℕ)
    (hlen : i + n ≤ (run_mean_reversion_zscore closes cap lookback ez xz sl
      (some k) ash).signal.length)
    (hrun : ∀ j, j < n →
      (run_mean_reversion_zscore closes cap lookback ez xz sl (some k)
        ash).signal.getD (i + j) 0 ≠ 0) :
    n ≤ k := by
  have hb : runBound k 0 ((run_mean_reversion_zscore closes cap lookback ez
      xz sl (some k) ash).signal) :=
    mrSignalAux_runBound ez xz sl ash k hk (mrRows lookback closes) mrInit 0
      (Or.inl ⟨rfl, rfl⟩)
  rcases runBound_run_le k _ 0 i n hb hlen hrun with h0 | hle
  · omega
  · exact hle

theorem max_holding_bounds_runs_witness :
    (∀ j, j < 1 →
      (run_mean_reversion_zscore [2, 1, 2] 100 2 (7/10) (1/2) none (some 1)
        true).signal.getD (1 + j) 0 ≠ 0) ∧ (1 : ℕ) ≤ 1 := by
  have h : ∀ j, j < 1 →
      (run_mean_reversion_zscore [2, 1, 2] 100 2 (7/10) (1/2) none (some 1)
        true).signal.getD (1 + j) 0 ≠ 0 := by
    intro j hj
    interval_cases j
    show (mrSignalList [2, 1, 2] 2 (7/10) (1/2) none (some 1) true).getD 1 0
      ≠ 0
    simp [mrSignalList, mrRows, mrSignalAux, mrStep, mrExit, exitSignal, stopHit, timedExit, mrInit, zInfoAt,
      smaAt, var1At, sampleVarAt, windowAt, zLEb, zGEb, divSqrtLE,
      List.range_succ]
    norm_num
  exact ⟨h, max_holding_bounds_runs [2, 1, 2] 100 2 (7/10) (1/2) none true 1
    (by norm_num) 1 1
    (by
      show 1 + 1 ≤ (mrSignalList [2, 1, 2] 2 (7/10) (1/2) none (some 1)
        true).length
      rw [mrSignalList_length]
      norm_num) h⟩

/-! ## C2: the rolling std column and the z-score guard

Bridges first: the scan's rational square tests decide exactly the real
z-score comparisons, so the `(close - mean, var)` encoding is faithful. -/

lemma divSqrtLE_iff (d v c : ℚ) (hv : 0 < v) :
    divSqrtLE d v c = true ↔ (d : ℝ) / Real.sqrt (v : ℝ) ≤ (c : ℝ) := by
  have hv' : (0 : ℝ) < (v : ℝ) := by exact_mod_cast hv
  have hs0 : 0 < Real.sqrt (v : ℝ) := Real.sqrt_pos.2 hv'
  have hsq : Real.sqrt (v : ℝ) ^ 2 = (v : ℝ) := Real.sq_sqrt hv'.le
  set s := Real.sqrt (v : ℝ) with hsdef
  rw [div_le_iff₀ hs0, divSqrtLE]
  by_cases hc : (0 : ℚ) ≤ c
  · have hc' : (0 : ℝ) ≤ (c : ℝ) := by exact_mod_cast hc
    rw [if_pos hc]
    simp only [Bool.or_eq_true, decide_eq_true_eq]
    constructor
    · rintro (hd | hd2)
      · have hd' : (d : ℝ) ≤ 0 := by exact_mod_cast hd
        exact le_trans hd' (mul_nonneg hc' hs0.le)
      · have hd2' : (d : ℝ) ^ 2 ≤ (c : ℝ) ^ 2 * (v : ℝ) := by exact_mod_cast hd2
        by_cases hd0 : (d : ℝ) ≤ 0
        · exact le_trans hd0 (mul_nonneg hc' hs0.le)
        · push_neg at hd0
          nlinarith [mul_nonneg hc' hs0.le]
    · intro hcs
      by_cases hd0 : d ≤ 0
      · exact Or.inl hd0
      · push_neg at hd0
        have hd0' : (0 : ℝ) < (d : ℝ) := by exact_mod_cast hd0
        right
        have h1 : (d : ℝ) ^ 2 ≤ ((c : ℝ) * s) ^ 2 := pow_le_pow_left₀ hd0'.le hcs 2
        have h2 : (d : ℝ) ^ 2 ≤ (c : ℝ) ^ 2 * (v : ℝ) := by nlinarith
        exact_mod_cast h2
  · push_neg at hc
    have hc' : (c : ℝ) < 0 := by exact_mod_cast hc
    have hcs : (c : ℝ) * s < 0 := mul_neg_of_neg_of_pos hc' hs0
    rw [if_neg (not_le.2 hc)]
    simp only [Bool.and_eq_true, decide_eq_true_eq]
    constructor
    · rintro ⟨hd, h2⟩
      have hd' : (d : ℝ) < 0 := by exact_mod_cast hd
      have h2' : (c : ℝ) ^ 2 * (v : ℝ) ≤ (d : ℝ) ^ 2 := by exact_mod_cast h2
      nlinarith
    · intro hcs2
      have hd' : (d : ℝ) < 0 := lt_of_le_of_lt hcs2 hcs
      refine ⟨by exact_mod_cast hd', ?_⟩
      have h2 : (c : ℝ) ^ 2 * (v : ℝ) ≤ (d : ℝ) ^ 2 := by nlinarith
      exact_mod_cast h2

/-- `zLEb` on a defined z-score decides `zscore ≤ c` over ℝ. -/
lemma zLEb_some_iff (d v c : ℚ) (hv : 0 < v) :
    zLEb (some (d, v)) c = true ↔ (d : ℝ) / Real.sqrt (v : ℝ) ≤ (c : ℝ) :=
  divSqrtLE_iff d v c hv

/-- `zGEb` on a defined z-score decides `c ≤ zscore` over ℝ. -/
lemma zGEb_some_iff (d v c : ℚ) (hv : 0 < v) :
    zGEb (some (d, v)) c = true ↔ (c : ℝ) ≤ (d : ℝ) / Real.sqrt (v : ℝ) := by
  rw [zGEb]
  rw [divSqrtLE_iff _ _ _ hv]
  push_cast [neg_div]
  constructor <;> intro h <;> linarith

lemma sampleVarAt_nonneg (w : ℕ) (xs : List ℚ) (t : ℕ) (hw : 2 ≤ w) :
    0 ≤ sampleVarAt w xs t := by
  apply div_nonneg
  · apply List.sum_nonneg
    intro x hx
    obtain ⟨y, hy, rfl⟩ := List.mem_map.1 hx
    positivity
  · have h2 : (2 : ℚ) ≤ (w : ℚ) := by exact_mod_cast hw
    linarith

/-- C2 (amended): for `lookback ≥ 2` the `std` column holds the *sample*
(`ddof = 1`) standard deviation `√(sampleVar)` of the last `lookback` closes;
it is undefined until `lookback` bars exist and whenever that sample variance
is 0, it is never 0 when defined (so the z-score divides by a strictly
positive std — no division by zero), and the z-score is defined exactly where
the std is. -/
theorem mr_std_is_sample_std (w : ℕ) (xs : List ℚ) (t : ℕ) (hw : 2 ≤ w) :
    ((mrStdAt w xs t).isSome ↔ (w ≤ t + 1 ∧ sampleVarAt w xs t ≠ 0)) ∧
    (w ≤ t + 1 → sampleVarAt w xs t ≠ 0 →
      mrStdAt w xs t = some (Real.sqrt ((sampleVarAt w xs t : ℚ) : ℝ)) ∧
      (0 : ℝ) < Real.sqrt ((sampleVarAt w xs t : ℚ) : ℝ)) ∧
    (∀ s, mrStdAt w xs t = some s → s ≠ 0) ∧
    ((mrZscoreAt w xs t).isSome ↔ (mrStdAt w xs t).isSome) := by
  by_cases hshort : t + 1 < w
  · have hvar : var1At w xs t = none := by simp [var1At, hshort]
    have hstd : mrStdAt w xs t = none := by
      rw [mrStdAt, rollingStdAt, hvar]; rfl
    have hz : mrZscoreAt w xs t = none := by
      rw [mrZscoreAt, hstd]
      cases smaAt w xs t <;> rfl
    rw [hstd, hz]
    refine ⟨by simp; omega, by omega, by simp, by simp⟩
  · push_neg at hshort
    have hvar : var1At w xs t = some (sampleVarAt w xs t) := by
      rw [var1At, if_neg]
      push_neg
      exact ⟨by omega, by omega⟩
    have hnn : 0 ≤ sampleVarAt w xs t := sampleVarAt_nonneg w xs t hw
    by_cases hv0 : sampleVarAt w xs t = 0
    · have hstd : mrStdAt w xs t = none := by
        rw [mrStdAt, rollingStdAt, hvar]
        simp [hv0]
      have hz : mrZscoreAt w xs t = none := by
        rw [mrZscoreAt, hstd]
        cases smaAt w xs t <;> rfl
      rw [hstd, hz]
      exact ⟨by simp [hv0], fun _ h => absurd hv0 h, by simp, by simp⟩
    · have hpos : 0 < sampleVarAt w xs t := lt_of_le_of_ne hnn (Ne.symm hv0)
      have hsqrt : (0 : ℝ) < Real.sqrt ((sampleVarAt w xs t : ℚ) : ℝ) :=
        Real.sqrt_pos.2 (by exact_mod_cast hpos)
      have hstd : mrStdAt w xs t
          = some (Real.sqrt ((sampleVarAt w xs t : ℚ) : ℝ)) := by
        rw [mrStdAt, rollingStdAt, hvar]
        simp [Option.bind, hsqrt.ne.symm]
      have hmean : smaAt w xs t = some ((windowAt w xs t).sum / (w : ℚ)) := by
        rw [smaAt, if_neg (by omega)]
      have hz : (mrZscoreAt w xs t).isSome = true := by
        rw [mrZscoreAt, hstd, hmean]
        rfl
      refine ⟨by rw [hstd]; simp [hshort, hv0], fun _ _ => ⟨hstd, hsqrt⟩,
        ?_, ?_⟩
      · intro s hs
        rw [hstd] at hs
        rw [← Option.some.inj hs]
        exact hsqrt.ne.symm
      · rw [hz, hstd]
        rfl

theorem mr_std_is_sample_std_witness :
    (2 ≤ 2) ∧ ((mrStdAt 2 [1, 3] 1).isSome
      ↔ (2 ≤ 1 + 1 ∧ sampleVarAt 2 [1, 3] 1 ≠ 0)) :=
  ⟨by norm_num, (mr_std_is_sample_std 2 [1, 3] 1 (by norm_num)).1⟩

/-- C2 (counterexample): at prices `[1, 3]` with `lookback = 2` the code's
rolling std on bar 1 is `√2` (sample, `ddof=1`), while the spec's population
standard deviation of the window is `1` — the `std` column is *not* the
population standard deviation. -/
theorem mr_std_not_population_std :
    mrStdAt 2 [1, 3] 1 ≠ popStdSpec 2 [1, 3] 1 := by
  have hv : var1At 2 [1, 3] 1 = some 2 := by
    rw [var1At, if_neg (by norm_num)]
    congr 1
    rw [sampleVarAt, windowAt]
    norm_num
  have hs2 : Real.sqrt ((2 : ℚ) : ℝ) ≠ 0 := by
    rw [ne_eq, Real.sqrt_eq_zero']
    push_cast
    norm_num
  have h1 : mrStdAt 2 [1, 3] 1 = some (Real.sqrt ((2 : ℚ) : ℝ)) := by
    rw [mrStdAt, rollingStdAt, hv]
    simp [Option.bind, hs2]
  have hp : popVarWindow 2 [1, 3] 1 = 1 := by
    rw [popVarWindow, windowAt]
    norm_num
  have h2 : popStdSpec 2 [1, 3] 1 = some 1 := by
    rw [popStdSpec, if_neg (by norm_num), hp, if_neg (by norm_num)]
    push_cast
    rw [Real.sqrt_one]
  rw [h1, h2]
  intro h
  have h3 := Option.some.inj h
  rw [show ((2 : ℚ) : ℝ) = (2 : ℝ) by push_cast; ring] at h3
  rw [Real.sqrt_eq_one] at h3
  norm_num at h3

/-! ## C4: `compute_metrics` on degenerate inputs

`compute_metrics` evaluates `equity.iloc[-1]`, which raises `IndexError` on
an empty return series (embedded as `none`) — even though the
`years = max(len/52, 1/52)` floor was put there to survive 0-length input.
On non-empty series whose equity curve never dips below its running peak the
drawdown column is identically 0, so `max_drawdown = 0`. -/

/-- C4: on the empty return series `compute_metrics` is *not* defined (the
code raises at `equity.iloc[-1]` before any metric is produced). -/
theorem compute_metrics_empty_raises : compute_metrics [] = none := rfl

lemma listMax_foldl_spec (as : List ℚ) :
    ∀ a : ℚ, a ≤ as.foldl max a ∧ ∀ x ∈ as, x ≤ as.foldl max a := by
  induction as with
  | nil => intro a; simp
  | cons b bs ih =>
      intro a
      have h := ih (max a b)
      refine ⟨le_trans (le_max_left a b) h.1, ?_⟩
      intro x hx
      rcases List.mem_cons.1 hx with rfl | hx'
      · exact le_trans (le_max_right a x) h.1
      · exact h.2 x hx'

lemma le_listMax {l : List ℚ} {x : ℚ} (hx : x ∈ l) : x ≤ listMax l := by
  cases l with
  | nil => simp at hx
  | cons a as =>
      rcases List.mem_cons.1 hx with rfl | hx'
      · exact (listMax_foldl_spec as x).1
      · exact (listMax_foldl_spec as a).2 x hx'

lemma mem_zipWith' {α β γ : Type} {f : α → β → γ} :
    ∀ {a : List α} {b : List β} {x : γ}, x ∈ List.zipWith f a b →
      ∃ (i : ℕ) (h1 : i < a.length) (h2 : i < b.length),
        x = f (a.get ⟨i, h1⟩) (b.get ⟨i, h2⟩) := by
  intro a
  induction a with
  | nil => intro b x hx; simp at hx
  | cons p ps ih =>
      intro b x hx
      cases b with
      | nil => simp at hx
      | cons q qs =>
          rcases List.mem_cons.1 hx with rfl | hx'
          · exact ⟨0, by simp, by simp, rfl⟩
          · obtain ⟨i, h1, h2, rfl⟩ := ih hx'
            exact ⟨i + 1, by simpa using h1, by simpa using h2, rfl⟩

lemma listMin_all_zero {l : List ℚ} (hne : l ≠ []) (hz : ∀ x ∈ l, x = 0) :
    listMin l = 0 := by
  cases l with
  | nil => exact absurd rfl hne
  | cons a as =>
      rw [listMin]
      have ha : a = 0 := hz a (by simp)
      subst ha
      clear hne
      induction as with
      | nil => rfl
      | cons b bs ih =>
          have hb : b = 0 := hz b (by simp)
          subst hb
          simp only [List.foldl_cons, min_self]
          exact ih (fun x hx => hz x (by
            rcases List.mem_cons.1 hx with rfl | h'
            · simp
            · simp [h']))

/-- Supporting fact for C4's non-degenerate half: on a non-empty return
series whose (positive) equity curve never dips below its own running peak,
`compute_metrics` is defined and reports `max_drawdown = 0`. -/
lemma metrics_max_drawdown_zero (returns : List ℚ) (hne : returns ≠ [])
    (hpos : ∀ t, t < returns.length → 0 < prefixProd returns t)
    (hnd : ∀ t, t < returns.length →
      listMax (((List.range returns.length).map
        (fun i => prefixProd returns i)).take (t + 1)) ≤ prefixProd returns t) :
    (compute_metrics returns).map MetricSummary.max_drawdown = some 0 := by
  have hn : 0 < returns.length := List.length_pos.2 hne
  have heqlen : ((List.range returns.length).map
      (fun i => prefixProd returns i)).length = returns.length := by simp
  have heqne : (List.range returns.length).map
      (fun i => prefixProd returns i) ≠ [] := by
    intro h
    rw [← List.length_eq_zero] at h
    omega
  obtain ⟨le, hle⟩ : ∃ le, ((List.range returns.length).map
      (fun i => prefixProd returns i)).getLast? = some le := by
    cases h : ((List.range returns.length).map
        (fun i => prefixProd returns i)).getLast? with
    | none => exact absurd (List.getLast?_eq_none_iff.1 h) heqne
    | some v => exact ⟨v, rfl⟩
  rw [compute_metrics]
  simp only [hle]
  rw [Option.map_some']
  congr 1
  apply listMin_all_zero
  · intro h
    rw [← List.length_eq_zero, List.length_zipWith] at h
    simp only [heqlen, List.length_map, List.length_range, min_self] at h
    omega
  · intro x hx
    obtain ⟨i, h1, h2, rfl⟩ := mem_zipWith' hx
    have hi : i < returns.length := by
      rw [heqlen] at h1; exact h1
    have hei : ((List.range returns.length).map
        (fun i => prefixProd returns i)).get ⟨i, h1⟩ = prefixProd returns i := by
      simp [List.get_eq_getElem]
    have hmi : ((List.range returns.length).map (fun t =>
        listMax (((List.range returns.length).map
          (fun i => prefixProd returns i)).take (t + 1)))).get ⟨i, h2⟩
        = listMax (((List.range returns.length).map
          (fun i => prefixProd returns i)).take (i + 1)) := by
      simp [List.get_eq_getElem]
    rw [hei, hmi]
    have hmem : prefixProd returns i ∈ ((List.range returns.length).map
        (fun i => prefixProd returns i)).take (i + 1) := by
      have hlen : i < (((List.range returns.length).map
          (fun i => prefixProd returns i)).take (i + 1)).length := by
        simp only [List.length_take, heqlen]
        omega
      have : (((List.range returns.length).map
          (fun i => prefixProd returns i)).take (i + 1))[i] =
          prefixProd returns i := by
        rw [List.getElem_take]
        simp
      rw [← this]
      exact List.getElem_mem hlen
    have hge : prefixProd returns i ≤ listMax (((List.range
        returns.length).map (fun i => prefixProd returns i)).take (i + 1)) :=
      le_listMax hmem
    have hle2 := hnd i hi
    have heq : listMax (((List.range returns.length).map
        (fun i => prefixProd returns i)).take (i + 1)) = prefixProd returns i :=
      le_antisymm hle2 hge
    rw [heq, div_self (ne_of_gt (hpos i hi))]
    ring

/-! ## C7: horizon windowing and rebasing -/

lemma colLookup_colSet_same (ps : List (String × ℚ)) (c : String) (v : ℚ) :
    colLookup (colSet ps c v) c = (colLookup ps c).map (fun _ => v) := by
  induction ps with
  | nil => rfl
  | cons p ps ih =>
      by_cases h : p.1 = c
      · simp [colSet, colLookup, h]
      · simp [colSet, colLookup, h, ih]

lemma colLookup_colSet_ne (ps : List (String × ℚ)) {c c' : String} (v : ℚ)
    (h : c' ≠ c) : colLookup (colSet ps c' v) c = colLookup ps c := by
  induction ps with
  | nil => rfl
  | cons p ps ih =>
      by_cases hp : p.1 = c'
      · simp [colSet, colLookup, hp, h, ih]
      · by_cases hpc : p.1 = c
        · have hcc : ¬(c = c') := fun hh => hp (by rw [hpc, hh])
          simp [colSet, colLookup, hp, hpc, hcc]
        · simp [colSet, colLookup, hp, hpc, ih]

lemma getCol_setCol_same (r : CRow) (c : String) (v : ℚ) :
    getCol (setCol r c v) c = (getCol r c).map (fun _ => v) :=
  colLookup_colSet_same r.cols c v

lemma getCol_setCol_ne (r : CRow) {c c' : String} (v : ℚ) (h : c' ≠ c) :
    getCol (setCol r c' v) c = getCol r c :=
  colLookup_colSet_ne r.cols v h

lemma getCol_setCol_isSome (r : CRow) (c c' : String) (v : ℚ) :
    (getCol (setCol r c' v) c).isSome = (getCol r c).isSome := by
  by_cases h : c' = c
  · subst h; rw [getCol_setCol_same]; cases getCol r c' <;> rfl
  · rw [getCol_setCol_ne _ _ h]

lemma resetFirstRet_length (w : List CRow) (c : String) :
    (resetFirstRet w c).length = w.length := by
  cases w <;> simp [resetFirstRet]

lemma rebaseCol_length (cap : ℚ) (w : List CRow) (c : String) :
    (rebaseCol cap w c).length = w.length := by
  cases w with
  | nil => rfl
  | cons r rs =>
      rw [rebaseCol]
      cases getCol r c with
      | none => rfl
      | some base =>
          by_cases h : base ≤ 0 <;> simp [h]

lemma foldl_resetFirstRet_length (rcols : List String) :
    ∀ w : List CRow, (rcols.foldl resetFirstRet w).length = w.length := by
  induction rcols with
  | nil => intro w; rfl
  | cons c cs ih => intro w; rw [List.foldl_cons, ih, resetFirstRet_length]

lemma foldl_rebaseCol_length (cap : ℚ) (ecols : List String) :
    ∀ w : List CRow, (ecols.foldl (rebaseCol cap) w).length = w.length := by
  induction ecols with
  | nil => intro w; rfl
  | cons c cs ih => intro w; rw [List.foldl_cons, ih, rebaseCol_length]

lemma horizonWindow_length_le (monthsAgo : ℤ → ℕ → ℤ) (df : List CRow)
    (horizon : String) :
    (horizonWindow monthsAgo df horizon).length ≤ df.length := by
  rw [horizonWindow]
  cases df.getLast? with
  | none => simp
  | some lastRow =>
      dsimp only
      by_cases h : (df.filter (fun r =>
          monthsAgo lastRow.date (HORIZON_MONTHS horizon) ≤ r.date)).isEmpty
          = true
      · rw [if_pos h]
      · rw [if_neg h]
        exact List.length_filter_le _ _

lemma horizonWindow_ne_nil (monthsAgo : ℤ → ℕ → ℤ) {df : List CRow}
    (horizon : String) (h : df ≠ []) :
    horizonWindow monthsAgo df horizon ≠ [] := by
  rw [horizonWindow]
  cases hl : df.getLast? with
  | none => exact absurd (List.getLast?_eq_none_iff.1 hl) h
  | some lastRow =>
      dsimp only
      by_cases he : (df.filter (fun r =>
          monthsAgo lastRow.date (HORIZON_MONTHS horizon) ≤ r.date)).isEmpty
          = true
      · rw [if_pos he]
        exact h
      · rw [if_neg he]
        intro hnil
        rw [hnil] at he
        exact he rfl

lemma horizonWindow_subset (monthsAgo : ℤ → ℕ → ℤ) (df : List CRow)
    (horizon : String) :
    ∀ r ∈ horizonWindow monthsAgo df horizon, r ∈ df := by
  rw [horizonWindow]
  cases df.getLast? with
  | none => simp
  | some lastRow =>
      dsimp only
      by_cases h : (df.filter (fun r =>
          monthsAgo lastRow.date (HORIZON_MONTHS horizon) ≤ r.date)).isEmpty
          = true
      · rw [if_pos h]
        exact fun r hr => hr
      · rw [if_neg h]
        intro r hr
        exact List.mem_of_mem_filter hr

lemma resetFirstRet_presence {w : List CRow} {c : String} (c' : String)
    (h : ∀ r ∈ w, (getCol r c).isSome = true) :
    ∀ r ∈ resetFirstRet w c', (getCol r c).isSome = true := by
  cases w with
  | nil => simp [resetFirstRet]
  | cons r rs =>
      intro x hx
      rw [resetFirstRet] at hx
      by_cases hp : (getCol r c').isSome = true
      · rw [if_pos hp] at hx
        rcases List.mem_cons.1 hx with rfl | hx'
        · rw [getCol_setCol_isSome]
          exact h r (by simp)
        · exact h x (by simp [hx'])
      · rw [if_neg hp] at hx
        rcases List.mem_cons.1 hx with rfl | hx'
        · exact h x (by simp)
        · exact h x (by simp [hx'])

lemma rebaseCol_presence {cap : ℚ} {w : List CRow} {c : String} (c' : String)
    (h : ∀ r ∈ w, (getCol r c).isSome = true) :
    ∀ r ∈ rebaseCol cap w c', (getCol r c).isSome = true := by
  cases w with
  | nil => simp [rebaseCol]
  | cons r rs =>
      intro x hx
      rw [rebaseCol] at hx
      cases hg : getCol r c' with
      | none =>
          simp only [hg] at hx
          exact h x hx
      | some base =>
          simp only [hg] at hx
          by_cases hb : base ≤ 0
          · rw [if_pos hb] at hx
            obtain ⟨y, hy, rfl⟩ := List.mem_map.1 hx
            rw [getCol_setCol_isSome]
            exact h y hy
          · rw [if_neg hb] at hx
            obtain ⟨y, hy, rfl⟩ := List.mem_map.1 hx
            rw [getCol_setCol_isSome]
            exact h y hy

lemma foldl_resetFirstRet_presence (rcols : List String) {c : String} :
    ∀ {w : List CRow}, (∀ r ∈ w, (getCol r c).isSome = true) →
      ∀ r ∈ rcols.foldl resetFirstRet w, (getCol r c).isSome = true := by
  induction rcols with
  | nil => intro w h; exact h
  | cons c' cs ih =>
      intro w h
      rw [List.foldl_cons]
      exact ih (resetFirstRet_presence c' h)

lemma rebaseCol_firstVal_self {cap : ℚ} {w : List CRow} {c : String}
    (hpres : ∀ r ∈ w, (getCol r c).isSome = true) (hw : w ≠ [])
    (hcap : 0 < cap) : firstVal (rebaseCol cap w c) c = some cap := by
  cases w with
  | nil => exact absurd rfl hw
  | cons r rs =>
      obtain ⟨base, hbase⟩ := Option.isSome_iff_exists.1 (hpres r (by simp))
      rw [rebaseCol]
      simp only [hbase]
      by_cases hb : base ≤ 0
      · rw [if_pos hb]
        show getCol (setCol r c cap) c = some cap
        rw [getCol_setCol_same, hbase]
        rfl
      · rw [if_neg hb]
        show getCol (setCol r c (cap * ((getCol r c).getD 0 / base))) c
          = some cap
        rw [getCol_setCol_same, hbase]
        push_neg at hb
        simp only [Option.map_some', Option.getD_some]
        rw [div_self (ne_of_gt hb), mul_one]

lemma rebaseCol_firstVal_ne {cap : ℚ} {w : List CRow} {c c' : String}
    (h : c' ≠ c) : firstVal (rebaseCol cap w c') c = firstVal w c := by
  cases w with
  | nil => rfl
  | cons r rs =>
      rw [rebaseCol]
      cases hg : getCol r c' with
      | none => rfl
      | some base =>
          simp only [hg]
          by_cases hb : base ≤ 0
          · rw [if_pos hb]
            show getCol (setCol r c' cap) c = getCol r c
            exact getCol_setCol_ne _ _ h
          · rw [if_neg hb]
            show getCol (setCol r c' _) c = getCol r c
            exact getCol_setCol_ne _ _ h

lemma rebaseCol_preserves_firstVal {cap : ℚ} {w : List CRow} {c : String}
    (c' : String) (hfv : firstVal w c = some cap) (hcap : 0 < cap) :
    firstVal (rebaseCol cap w c') c = some cap := by
  by_cases h : c' = c
  · subst h
    cases w with
    | nil => exact absurd hfv (by simp [firstVal])
    | cons r rs =>
        have hg : getCol r c' = some cap := hfv
        rw [rebaseCol]
        simp only [hg]
        rw [if_neg (not_le.2 hcap)]
        show getCol (setCol r c' (cap * ((getCol r c').getD 0 / cap))) c'
          = some cap
        rw [getCol_setCol_same, hg]
        simp only [Option.map_some', Option.getD_some]
        rw [div_self (ne_of_gt hcap), mul_one]
  · rw [rebaseCol_firstVal_ne h, hfv]

lemma foldl_rebase_preserves_firstVal (ecols : List String) {cap : ℚ}
    {c : String} :
    ∀ {w : List CRow}, firstVal w c = some cap → 0 < cap →
      firstVal (ecols.foldl (rebaseCol cap) w) c = some cap := by
  induction ecols with
  | nil => intro w h _; exact h
  | cons e es ih =>
      intro w h hcap
      rw [List.foldl_cons]
      exact ih (rebaseCol_preserves_firstVal e h hcap) hcap

lemma foldl_rebase_firstVal (ecols : List String) {cap : ℚ} {c : String} :
    ∀ {w : List CRow}, c ∈ ecols →
      (∀ r ∈ w, (getCol r c).isSome = true) → w ≠ [] → 0 < cap →
      firstVal (ecols.foldl (rebaseCol cap) w) c = some cap := by
  induction ecols with
  | nil => intro w h; simp at h
  | cons e es ih =>
      intro w hc hpres hw hcap
      rw [List.foldl_cons]
      by_cases he : e = c
      · subst he
        exact foldl_rebase_preserves_firstVal es
          (rebaseCol_firstVal_self hpres hw hcap) hcap
      · have hc' : c ∈ es := by
          rcases List.mem_cons.1 hc with h | h
          · exact absurd h.symm he
          · exact h
        refine ih hc' (rebaseCol_presence e hpres) ?_ hcap
        intro hnil
        rw [← List.length_eq_zero, rebaseCol_length, List.length_eq_zero]
          at hnil
        exact hw hnil

lemma rebaseCol_const_self {cap : ℚ} {w : List CRow} {c : String} {b : ℚ}
    (hfv : firstVal w c = some b) (hb : b ≤ 0)
    (hpres : ∀ r ∈ w, (getCol r c).isSome = true) :
    ∀ r ∈ rebaseCol cap w c, getCol r c = some cap := by
  cases w with
  | nil => simp [rebaseCol]
  | cons r rs =>
      have hg : getCol r c = some b := hfv
      rw [rebaseCol]
      simp only [hg]
      rw [if_pos hb]
      intro x hx
      obtain ⟨y, hy, rfl⟩ := List.mem_map.1 hx
      obtain ⟨v, hv⟩ := Option.isSome_iff_exists.1 (hpres y hy)
      rw [getCol_setCol_same, hv]
      rfl

lemma rebaseCol_preserves_const {cap : ℚ} {w : List CRow} {c : String}
    (c' : String) (hconst : ∀ r ∈ w, getCol r c = some cap) (hcap : 0 < cap) :
    ∀ r ∈ rebaseCol cap w c', getCol r c = some cap := by
  cases w with
  | nil => simp [rebaseCol]
  | cons r rs =>
      rw [rebaseCol]
      cases hg : getCol r c' with
      | none => simp only [hg]; exact hconst
      | some base =>
          simp only [hg]
          by_cases he : c' = c
          · subst he
            have : base = cap := by
              have := hconst r (by simp)
              rw [hg] at this
              exact Option.some.inj this
            subst this
            rw [if_neg (not_le.2 hcap)]
            intro x hx
            obtain ⟨y, hy, rfl⟩ := List.mem_map.1 hx
            rw [getCol_setCol_same, hconst y hy]
            simp only [Option.map_some', Option.getD_some]
            rw [div_self (ne_of_gt hcap), mul_one]
          · by_cases hb : base ≤ 0
            · rw [if_pos hb]
              intro x hx
              obtain ⟨y, hy, rfl⟩ := List.mem_map.1 hx
              rw [getCol_setCol_ne _ _ he]
              exact hconst y hy
            · rw [if_neg hb]
              intro x hx
              obtain ⟨y, hy, rfl⟩ := List.mem_map.1 hx
              rw [getCol_setCol_ne _ _ he]
              exact hconst y hy

lemma foldl_rebase_preserves_const (ecols : List String) {cap : ℚ}
    {c : String} :
    ∀ {w : List CRow}, (∀ r ∈ w, getCol r c = some cap) → 0 < cap →
      ∀ r ∈ ecols.foldl (rebaseCol cap) w, getCol r c = some cap := by
  induction ecols with
  | nil => intro w h _; exact h
  | cons e es ih =>
      intro w h hcap
      rw [List.foldl_cons]
      exact ih (rebaseCol_preserves_const e h hcap) hcap

lemma foldl_rebase_const (ecols : List String) {cap : ℚ} {c : String} {b : ℚ} :
    ∀ {w : List CRow}, c ∈ ecols →
      (∀ r ∈ w, (getCol r c).isSome = true) → firstVal w c = some b →
      b ≤ 0 → 0 < cap →
      ∀ r ∈ ecols.foldl (rebaseCol cap) w, getCol r c = some cap := by
  induction ecols with
  | nil => intro w h; simp at h
  | cons e es ih =>
      intro w hc hpres hfv hb hcap
      rw [List.foldl_cons]
      by_cases he : e = c
      · subst he
        exact foldl_rebase_preserves_const es
          (rebaseCol_const_self hfv hb hpres) hcap
      · have hc' : c ∈ es := by
          rcases List.mem_cons.1 hc with h | h
          · exact absurd h.symm he
          · exact h
        refine ih hc' (rebaseCol_presence e hpres) ?_ hb hcap
        rw [rebaseCol_firstVal_ne he, hfv]

/-- C7: on a non-empty source curve, any listed horizon and positive capital,
the transform's output puts exactly `initial_capital` as the first value of
each (present) rebased equity column, is never longer than the source, and
when the window's first value in that column is ≤ 0 the whole column is the
constant `initial_capital`. -/
theorem horizon_rebase_first_equity (monthsAgo : ℤ → ℕ → ℤ) (df : List CRow)
    (horizon : String) (cap : ℚ) (rcols ecols : List String) (c : String)
    (hdf : df ≠ []) (hh : horizon ∈ ["1M", "6M", "1Y", "5Y", "10Y"])
    (hcap : 0 < cap) (hc : c ∈ ecols)
    (hpres : ∀ r ∈ df, (getCol r c).isSome = true) :
    firstVal (apply_horizon_window_and_rebase monthsAgo df horizon cap rcols
      ecols) c = some cap ∧
    (apply_horizon_window_and_rebase monthsAgo df horizon cap rcols
      ecols).length ≤ df.length ∧
    (∀ b, firstVal (rcols.foldl resetFirstRet
        (horizonWindow monthsAgo df horizon)) c = some b → b ≤ 0 →
      ∀ r ∈ apply_horizon_window_and_rebase monthsAgo df horizon cap rcols
        ecols, getCol r c = some cap) := by
  have hemp : df.isEmpty = false := by
    cases df with
    | nil => exact absurd rfl hdf
    | cons r rs => rfl
  have hunfold : apply_horizon_window_and_rebase monthsAgo df horizon cap
      rcols ecols = ecols.foldl (rebaseCol cap)
        (rcols.foldl resetFirstRet (horizonWindow monthsAgo df horizon)) := by
    rw [apply_horizon_window_and_rebase, hemp]
    rfl
  have hwpres : ∀ r ∈ rcols.foldl resetFirstRet
      (horizonWindow monthsAgo df horizon), (getCol r c).isSome = true :=
    foldl_resetFirstRet_presence rcols
      (fun r hr => hpres r (horizonWindow_subset monthsAgo df horizon r hr))
  have hwne : rcols.foldl resetFirstRet (horizonWindow monthsAgo df horizon)
      ≠ [] := by
    intro h
    rw [← List.length_eq_zero, foldl_resetFirstRet_length,
      List.length_eq_zero] at h
    exact horizonWindow_ne_nil monthsAgo horizon hdf h
  refine ⟨?_, ?_, ?_⟩
  · rw [hunfold]
    exact foldl_rebase_firstVal ecols hc hwpres hwne hcap
  · rw [hunfold, foldl_rebaseCol_length, foldl_resetFirstRet_length]
    exact horizonWindow_length_le monthsAgo df horizon
  · intro b hfv hb
    rw [hunfold]
    exact foldl_rebase_const ecols hc hwpres hfv hb hcap

theorem horizon_rebase_first_equity_witness :
    firstVal (apply_horizon_window_and_rebase (fun d m => d - m)
      [⟨0, [("equity", 5)]⟩] "1Y" 3 [] ["equity"]) "equity" = some 3 :=
  (horizon_rebase_first_equity (fun d m => d - m) [⟨0, [("equity", 5)]⟩]
    "1Y" 3 [] ["equity"] "equity" (by simp) (by simp) (by norm_num)
    (by simp) (by simp [getCol, colLookup])).1

/-! ## C9: `top_n = 1` with ranking holds at most one ticker -/

lemma selectedTickers_length_le (top_n : ℕ) (tickers : List String)
    (pos : String → ℚ) (mom : String → Option ℚ) :
    (selectedTickers true top_n tickers pos mom).length ≤ top_n ∨
      selectedTickers true top_n tickers pos mom = [] := by
  rw [selectedTickers]
  by_cases hA : (activeTickers tickers pos).isEmpty = true
  · right
    simp only [hA, Bool.not_true, Bool.and_false, if_false]
    exact List.isEmpty_iff.1 hA
  · left
    have hA' : (activeTickers tickers pos).isEmpty = false := by
      revert hA
      cases (activeTickers tickers pos).isEmpty <;> simp
    have hcond : (true && !(activeTickers tickers pos).isEmpty) = true := by
      rw [hA']
      rfl
    rw [if_pos hcond]
    calc (List.take top_n (rankedByMomentum (activeTickers tickers pos)
          mom)).length ≤ top_n := by
          rw [List.length_take]
          exact min_le_left _ _

lemma selectedTickers_subset (use_ranking : Bool) (top_n : ℕ)
    (tickers : List String) (pos : String → ℚ) (mom : String → Option ℚ) :
    ∀ t ∈ selectedTickers use_ranking top_n tickers pos mom, t ∈ tickers := by
  intro t ht
  rw [selectedTickers] at ht
  by_cases hb : (use_ranking && !(activeTickers tickers pos).isEmpty) = true
  · rw [if_pos hb] at ht
    have h1 := List.mem_of_mem_take ht
    have h2 := (List.mem_mergeSort).1 h1
    exact List.mem_of_mem_filter h2
  · rw [if_neg hb] at ht
    exact List.mem_of_mem_filter ht

/-- C9: in the portfolio aggregator with `use_ranking = true` and a requested
`top_n` of 1, at most one (deduplicated) ticker carries a nonzero weight in
the final date's holdings snapshot, whatever the per-ticker position and
momentum data are. -/
theorem portfolio_top1_single_holding (dates : List ℤ) (tickers : List String)
    (posAt : ℤ → String → ℚ) (momAt : ℤ → String → Option ℚ)
    (hnd : tickers.Nodup) :
    (tickers.filter (fun t => latestWeights dates tickers posAt momAt true
      (portfolio_top_n 1 tickers) t ≠ 0)).length ≤ 1 := by
  cases hl : dates.getLast? with
  | none =>
      have : tickers.filter (fun t => latestWeights dates tickers posAt momAt
          true (portfolio_top_n 1 tickers) t ≠ 0) = [] := by
        apply List.filter_eq_nil_iff.2
        intro t _
        simp [latestWeights, hl]
      rw [this]
      norm_num
  | some d =>
      have hmem : ∀ t, latestWeights dates tickers posAt momAt true
          (portfolio_top_n 1 tickers) t ≠ 0 →
          t ∈ selectedTickers true (portfolio_top_n 1 tickers) tickers
            (posAt d) (momAt d) := by
        intro t hw
        by_contra hmem
        apply hw
        simp only [latestWeights, hl, weightFor]
        rw [if_neg hmem]
      have hsel1 : (selectedTickers true (portfolio_top_n 1 tickers) tickers
          (posAt d) (momAt d)).length ≤ 1 := by
        rcases selectedTickers_length_le (portfolio_top_n 1 tickers) tickers
            (posAt d) (momAt d) with h | h
        · exact le_trans h (min_le_left _ _)
        · rw [h]; norm_num
      have hndf : (tickers.filter (fun t => latestWeights dates tickers posAt
          momAt true (portfolio_top_n 1 tickers) t ≠ 0)).Nodup :=
        hnd.filter _
      calc (tickers.filter (fun t => latestWeights dates tickers posAt momAt
            true (portfolio_top_n 1 tickers) t ≠ 0)).length
          = (tickers.filter (fun t => latestWeights dates tickers posAt momAt
            true (portfolio_top_n 1 tickers) t ≠ 0)).toFinset.card :=
            (List.toFinset_card_of_nodup hndf).symm
        _ ≤ (selectedTickers true (portfolio_top_n 1 tickers) tickers
            (posAt d) (momAt d)).toFinset.card := by
            apply Finset.card_le_card
            intro t ht
            rw [List.mem_toFinset] at ht ⊢
            have h2 := List.mem_filter.1 ht
            exact hmem t (of_decide_eq_true h2.2)
        _ ≤ (selectedTickers true (portfolio_top_n 1 tickers) tickers
            (posAt d) (momAt d)).length := List.toFinset_card_le _
        _ ≤ 1 := hsel1

theorem portfolio_top1_single_holding_witness :
    (["A", "B"] : List String).Nodup ∧
      ((["A", "B"] : List String).filter (fun t =>
        latestWeights [0] ["A", "B"] (fun _ _ => 1) (fun _ _ => none) true
          (portfolio_top_n 1 ["A", "B"]) t ≠ 0)).length ≤ 1 := by
  have hnd : (["A", "B"] : List String).Nodup := by simp
  exact ⟨hnd, portfolio_top1_single_holding [0] ["A", "B"] (fun _ _ => 1)
    (fun _ _ => none) hnd⟩

end SMABacktester
